import Mathlib

/-!
Verification of the stupid-cms core (src/cms/models.py) against its
specification.  The Python models are shallowly embedded as executable Lean
definitions:

* block position allocation (`Page.get_first_position`,
  `Page.get_position_after`, `BlockQuerySet.redistribute_positions`),
* page path denormalisation (`Page.save` and its cascade over children),
* hierarchy cycle validation (`Page._validate_noncyclic_hierarchy`),
* reference hooks (`Reference.find_references`, `Block.validate_references`,
  `Block.publish`, `Reference._validate` / `Reference.save`).

Modelling conventions: Django rows become structures, querysets become lists,
raised exceptions become `Except`/explicit error constructors, and the one
recursive retry in position allocation is given explicit fuel (`outOfFuel`
marks a retry that the real code would keep recursing on).  Python `int` ids
and `str` regex captures are kept as distinct values (`PyVal`) because the
source mixes them.  Querysets that the source slices without an `order_by`
are modelled in `position` order.
-/

/-- A content block as seen by the per-page position allocator: its id and its
`position` sort key (`Block.position`, a `PositiveSmallIntegerField`, range
0..32767).  Other fields play no role in position allocation. -/
structure Blk where
  id : Nat
  position : Nat
deriving DecidableEq, Repr

/-- Insert a block into a list that is sorted by ascending `position`. -/
def insertByPos (b : Blk) : List Blk → List Blk
  | [] => [b]
  | c :: cs => if b.position ≤ c.position then b :: c :: cs else c :: insertByPos b cs

/-- Sort blocks by ascending `position`; models `order_by('position')` and the
position order in which unordered queryset slices are read (see header). -/
def sortByPos : List Blk → List Blk
  | [] => []
  | b :: bs => insertByPos b (sortByPos bs)

/-- The assignment loop of `BlockQuerySet.redistribute_positions`: walk the
blocks in position order, giving the first block position `start` and each
next block `gap` more. -/
def assignPositions (start gap : Nat) : List Blk → List Blk
  | [] => []
  | b :: bs => { b with position := start } :: assignPositions (start + gap) gap bs

/-- `BlockQuerySet.redistribute_positions` as invoked from
`Page.get_first_position` / `Page.get_position_after` on `self.blocks`, the
complete block set of one page (both usage checks of the queryset method then
pass vacuously; the checked queryset method itself is `redistribute_positions`
below).  `space = round(32767 * 0.8) = 26214`, and the first assigned
position is `round(32767 * 0.1) = 3277`; `gap = space // count`. -/
def redistributePagePositions (blocks : List Blk) : List Blk :=
  if blocks.isEmpty then blocks
  else assignPositions 3277 (26214 / blocks.length) (sortByPos blocks)

/-- First position of a nonempty position-sorted list (the `[]` branch is
unreachable at every use site and returns a dummy). -/
def headPos : List Blk → Nat
  | [] => 0
  | b :: _ => b.position

/-- `Page.get_first_position`: 100 when the page has no blocks; otherwise, if
the lowest position is 0, redistribute first; return half the (possibly
redistributed) lowest position.  Returns the value and the resulting block
set. -/
def get_first_position (blocks : List Blk) : Nat × List Blk :=
  if blocks.isEmpty then (100, blocks)
  else
    let blocks' :=
      if headPos (sortByPos blocks) == 0 then redistributePagePositions blocks
      else blocks
    (headPos (sortByPos blocks') / 2, blocks')

/-- Result of `Page.get_position_after`: a position plus the page's (possibly
redistributed) block set, an error (anchor id not found — Django raises
`DoesNotExist`), or `outOfFuel` when the retry budget given to the model is
exhausted (the real code would recurse again). -/
inductive PResult where
  | ok : Nat → List Blk → PResult
  | error : String → PResult
  | outOfFuel : PResult
deriving DecidableEq, Repr

/-- `Page.get_position_after(after)`.  `fuel` bounds the
redistribute-and-retry recursion of the source (`return
self.get_position_after(after.id)`), which is not structurally terminating:
each retry consumes one unit of fuel. -/
def get_position_after : Nat → List Blk → Option Nat → PResult
  | _, blocks, none =>
    let r := get_first_position blocks
    .ok r.1 r.2
  | fuel, blocks, some aid =>
    match List.find? (fun b => b.id == aid) blocks with
    | none => .error ("Block matching query does not exist.")
    | some a =>
      let blocksAfter := sortByPos (blocks.filter (fun b => a.position ≤ b.position))
      match blocksAfter with
      | [x] =>
        if x.position == 32767 then
          match fuel with
          | 0 => .outOfFuel
          | f + 1 => get_position_after f (redistributePagePositions blocks) (some aid)
        else .ok (a.position + 100) blocks
      | x :: y :: _ =>
        if y.position - x.position < 2 then
          match fuel with
          | 0 => .outOfFuel
          | f + 1 => get_position_after f (redistributePagePositions blocks) (some aid)
        else .ok ((x.position + y.position) / 2) blocks
      | [] => .error ("unreachable: the anchor always survives its own filter")

/-- A block row as seen by the queryset method
`BlockQuerySet.redistribute_positions`, which can be called on arbitrary
block querysets and therefore also sees `parent_page`. -/
structure BlkRow where
  id : Nat
  parentPage : Nat
  position : Nat
deriving DecidableEq, Repr

/-- Insertion into a `position`-sorted `BlkRow` list. -/
def insertRowByPos (b : BlkRow) : List BlkRow → List BlkRow
  | [] => [b]
  | c :: cs =>
    if b.position ≤ c.position then b :: c :: cs else c :: insertRowByPos b cs

/-- Sort block rows by ascending `position`. -/
def sortRowsByPos : List BlkRow → List BlkRow
  | [] => []
  | b :: bs => insertRowByPos b (sortRowsByPos bs)

/-- The assignment loop over `BlkRow`s. -/
def assignRowPositions (start gap : Nat) : List BlkRow → List BlkRow
  | [] => []
  | b :: bs => { b with position := start } :: assignRowPositions (start + gap) gap bs

/-- `BlockQuerySet.redistribute_positions` with its two usage checks.  `db` is
the whole block table (used for `self[0].parent_page.blocks.count()`),
`target` the queryset the method is called on.  An empty queryset returns
unchanged; then the method errors if the target spans more than one page
(`set(values_list('parent_page'))` has more than one element), or if the
target is not the complete block set of its page.  Both errors are raised
before any position is assigned, so an `error` result leaves every position
unchanged. -/
def redistribute_positions (db target : List BlkRow) : Except String (List BlkRow) :=
  match target with
  | [] => .ok target
  | t0 :: _ =>
    if 1 < ((target.map (fun b => b.parentPage)).dedup).length then
      .error ("You may only redistribute blocks within one page at a time.")
    else if (db.filter (fun b => b.parentPage == t0.parentPage)).length ≠ target.length then
      .error ("You must redistribute all blocks from a page at once.")
    else
      .ok (assignRowPositions 3277 (26214 / target.length) (sortRowsByPos target))

/-- The per-`Page` fields that path denormalisation reads and writes: `slug`,
`title` and the two cached ancestor strings `denormalised_path` /
`denormalised_titles`.  (`save` derives a blank slug from the title via
`slugify`; that derivation is outside the scope of the path claims, so slugs
appear here as stored.) -/
structure PageData where
  slug : String
  title : String
  path : String
  titles : String
deriving DecidableEq, Repr

/-- Python `sep.join(parts)`. -/
def pyJoin (sep : String) : List String → String
  | [] => ""
  | [s] => s
  | s :: rest => s ++ sep ++ pyJoin sep rest

/-- `Page.generate_denormalised_path`: slash-join of the parent's stored
`denormalised_path` and `slug`, dropping falsy (empty) parts; empty string
for a top-level page. -/
def generate_denormalised_path (parent : Option PageData) : String :=
  match parent with
  | none => ""
  | some p => pyJoin ("/") ([p.path, p.slug].filter (fun s => s ≠ ""))

/-- `Page.generate_denormalised_titles`: same with newlines and titles. -/
def generate_denormalised_titles (parent : Option PageData) : String :=
  match parent with
  | none => ""
  | some p => pyJoin ("\n") ([p.titles, p.title].filter (fun s => s ≠ ""))

mutual

/-- A page together with its subtree of children (`Page.parent` edges of the
acyclic page table, viewed from the parent side). -/
inductive PTree where
  | node : PageData → PForest → PTree
deriving DecidableEq

/-- A list of sibling subtrees. -/
inductive PForest where
  | nil : PForest
  | cons : PTree → PForest → PForest
deriving DecidableEq

end

mutual

/-- `Page.save` on a page whose path recomputation has been triggered
(`_redenormalise_path_if_needed` fired): `_denormalise_path` recomputes the
page's own cached strings from its parent's stored `PageData` (`none` for a
move to top level), and `_redenormalise_children_paths` then re-saves every
child with `redenormalise_path=True`, which recomputes the child from the
parent's freshly saved data and cascades on recursively. -/
def resaveT (parent : Option PageData) : PTree → PTree
  | .node d cs =>
    let d' := { d with
      path := generate_denormalised_path parent,
      titles := generate_denormalised_titles parent }
    .node d' (resaveF d' cs)

/-- The cascade of `Page._redenormalise_children_paths` over the children. -/
def resaveF (parent : PageData) : PForest → PForest
  | .nil => .nil
  | .cons t ts => .cons (resaveT (some parent) t) (resaveF parent ts)

end

/-- `Page._path_needs_redenormalising`, over the fields it reads: the stored
path, whether the page now has a parent, and whether slug or parent changed
since load (`_old_slug` / `_old_parent_id` comparisons). -/
def path_needs_redenormalising (d : PageData) (hasParent slugChanged parentChanged : Bool) : Bool :=
  (d.path == "" && hasParent) || (d.path != "" && !hasParent) || slugChanged || parentChanged

/-- `Page.save` of the moved page itself: recompute and cascade exactly when
forced or `_path_needs_redenormalising` holds, else leave the subtree
untouched (the scheduled flag stays false, so no cascade runs). -/
def page_save (parent : Option PageData) (slugChanged parentChanged force : Bool) : PTree → PTree
  | .node d cs =>
    if force || path_needs_redenormalising d parent.isSome slugChanged parentChanged then
      resaveT parent (.node d cs)
    else .node d cs

mutual

/-- Well-formedness used by the path claims: every page in the subtree has a
nonempty slug and a nonempty title (as produced by `slugify` on any titled
page; empty parts would be dropped by the joins). -/
def wellFormedT : PTree → Bool
  | .node d cs => d.slug ≠ "" && d.title ≠ "" && wellFormedF cs

/-- `wellFormedT` over a forest. -/
def wellFormedF : PForest → Bool
  | .nil => true
  | .cons t ts => wellFormedT t && wellFormedF ts

end

mutual

/-- The denormalisation invariant: given the slugs and titles of the
ancestors in root-to-immediate-parent order, the stored `denormalised_path`
is their slash-join and `denormalised_titles` their newline-join, recursively
for every descendant. -/
def pathsCorrectT (ancSlugs ancTitles : List String) : PTree → Bool
  | .node d cs =>
    d.path == pyJoin ("/") ancSlugs && d.titles == pyJoin ("\n") ancTitles &&
      pathsCorrectF (ancSlugs ++ [d.slug]) (ancTitles ++ [d.title]) cs

/-- `pathsCorrectT` over a forest of siblings. -/
def pathsCorrectF (ancSlugs ancTitles : List String) : PForest → Bool
  | .nil => true
  | .cons t ts => pathsCorrectT ancSlugs ancTitles t && pathsCorrectF ancSlugs ancTitles ts

end

/-- The new parent handed to `Page.save` is consistent with an ancestor chain:
either top level (no ancestors), or a page whose stored strings are the joins
of its own ancestors' nonempty slugs/titles, with the full chains being those
ancestors plus the parent itself. -/
def parentMatches (ancSlugs ancTitles : List String) : Option PageData → Prop
  | none => ancSlugs = [] ∧ ancTitles = []
  | some p =>
      p.slug ≠ "" ∧ p.title ≠ "" ∧
      (∃ ps, ancSlugs = ps ++ [p.slug] ∧ (∀ s ∈ ps, s ≠ "") ∧ p.path = pyJoin ("/") ps) ∧
      (∃ pt, ancTitles = pt ++ [p.title] ∧ (∀ s ∈ pt, s ≠ "") ∧ p.titles = pyJoin ("\n") pt)

/-- A page row as seen by `Page._validate_noncyclic_hierarchy`: its id and
parent id. -/
structure PageRow where
  id : Nat
  parent : Option Nat
deriving DecidableEq, Repr

/-- `page.parent` lookup against the stored table (`none` for a top-level
page or an id absent from the table). -/
def parentOf (db : List PageRow) (i : Nat) : Option Nat :=
  match db.find? (fun r => r.id == i) with
  | some r => r.parent
  | none => none

/-- Outcome of `_validate_noncyclic_hierarchy`: `ok`, or the raised
`ValidationError` message. -/
inductive VResult where
  | ok : VResult
  | error : String → VResult
deriving DecidableEq, Repr

/-- The `while parent is not None` walk of `_validate_noncyclic_hierarchy`:
follow parent ids to the root; raise when the saved page's own id appears.
`fuel` bounds the loop, which terminates on acyclic tables; `none` = fuel ran
out. -/
def walkParents (db : List PageRow) (selfId : Nat) : Nat → Option Nat → Option VResult
  | _, none => some .ok
  | 0, some _ => none
  | fuel + 1, some pid =>
    if pid == selfId then
      some (.error ("Pages cannot be descendants of themselves."))
    else walkParents db selfId fuel (parentOf db pid)

/-- `Page._validate_noncyclic_hierarchy`: short-circuit when the page already
exists and its parent is unchanged, or when it is being made top level;
otherwise walk the new parent chain. -/
def validate_noncyclic_hierarchy (db : List PageRow) (selfId : Nat) (pkSet : Bool)
    (oldParentId parentId : Option Nat) (fuel : Nat) : Option VResult :=
  if pkSet && oldParentId == parentId then some .ok
  else
    match parentId with
    | none => some .ok
    | some _ => walkParents db selfId fuel parentId

/-- `n`-fold parent-of iteration over the stored table. -/
def iterParent (db : List PageRow) : Nat → Option Nat → Option Nat
  | 0, x => x
  | n + 1, x =>
    match x with
    | none => none
    | some i => iterParent db n (parentOf db i)

/-- `a` is a strict descendant of `b` in the stored table: `b` lies on `a`'s
parent chain. -/
def IsDescendantOf (db : List PageRow) (a b : Nat) : Prop :=
  ∃ n, 0 < n ∧ iterParent db n (some a) = some b

/-- A Python value as it flows through the reference-validation code: the
source mixes `int` database ids with the `str` captures produced by
`re.findall`, and Python never equates an `int` with a `str`. -/
inductive PyVal where
  | int : Nat → PyVal
  | str : String → PyVal
deriving DecidableEq, Repr

/-- Try to match `Reference.generic_hook_re` — the pattern
`(?<!\\)!ref\((?P<ref>\d+)\)` without its lookbehind — at the head of the
character list: literal `!ref(`, one or more digits (greedy; no backtracking
can help since `)` is not a digit), then `)`.  Returns the digit capture and
the remainder after the match. -/
def matchHook : List Char → Option (String × List Char)
  | '!' :: 'r' :: 'e' :: 'f' :: '(' :: rest =>
    match rest.takeWhile Char.isDigit, rest.dropWhile Char.isDigit with
    | [], _ => none
    | ds, ')' :: rest2 => some (String.mk ds, rest2)
    | _, _ => none
  | _ => none

/-- The `re.findall` scan for `generic_hook_re`: non-overlapping matches left
to right, each guarded by the `(?<!\\)` lookbehind on the character just
before the match (`prev`; `none` at the start of the text).  `fuel` is an
upper bound on the remaining text length, so the scan never runs out when
started with `fuel = length`. -/
def hookScanAux : Nat → Option Char → List Char → List String
  | 0, _, _ => []
  | _ + 1, _, [] => []
  | fuel + 1, prev, c :: rest =>
    if prev == some '\\' then hookScanAux fuel (some c) rest
    else
      match matchHook (c :: rest) with
      | some (d, rest2) => d :: hookScanAux fuel (some ')') rest2
      | none => hookScanAux fuel (some c) rest

/-- `generic_hook_re.findall(content)`: the ordered list of digit-group
captures (Python strings). -/
def findallHooks (content : String) : List String :=
  hookScanAux content.data.length none content.data

/-- `Reference.find_references(content)` =
`set(cls.generic_hook_re.findall(content))`: a Python set built from the
findall result — whose elements are the capture *strings*. -/
def find_references (content : String) : Finset PyVal :=
  ((findallHooks content).map PyVal.str).toFinset

/-- The character sequence of an inline hook `!ref(<d>)`. -/
def hookPattern (d : List Char) : List Char :=
  '!' :: 'r' :: 'e' :: 'f' :: '(' :: (d ++ [')'])

/-- The digit string `d` occurs as an unescaped hook in the text `cs`, where
`prev` is the character immediately preceding `cs` in the full text (`none`
at the start): at some index `i` the hook pattern appears, and the character
just before it (which is `prev` when `i = 0`) is not a backslash. -/
def HookIn (prev : Option Char) (cs d : List Char) : Prop :=
  d ≠ [] ∧ (∀ c ∈ d, c.isDigit) ∧
    ∃ i, (cs.drop i).take (6 + d.length) = hookPattern d ∧
      (if i = 0 then prev ≠ some '\\' else cs[i - 1]? ≠ some '\\')

/-- Modelled from the spec's words, for comparison with the code: the digit
string `d` occurs in `s` as an inline hook `!ref(<id>)` that is not escaped
by a preceding backslash. -/
def SpecUnescapedHook (s d : String) : Prop :=
  HookIn none s.data d.data

/-- A `Reference` row as read by `Block.validate_references`: its id and the
id of its `containing_block`. -/
structure RefRow where
  id : Nat
  containingBlock : Nat
deriving DecidableEq, Repr

deriving instance DecidableEq for Except

/-- Python `int(s)` restricted to the nonempty all-digit strings the hook
regex captures (any other string raises in Python; modelled as `none`). -/
def strToNat (s : String) : Option Nat :=
  if s.data.isEmpty then none
  else if s.data.all Char.isDigit then
    some (s.data.foldl (fun acc c => acc * 10 + (c.toNat - 48)) 0)
  else none

/-- Coercion Django applies to each member of an `id__in` lookup: an `int`
passes through, a `str` is parsed as an integer. -/
def pyToNat : PyVal → Option Nat
  | .int n => some n
  | .str s => strToNat s

/-- The raised `ValidationError` of `validate_references`, reduced to the
data interpolated into its message: the `missing_ids` set it names, and
whether the plural wording (`len(missing_ids) != 1`) was chosen. -/
structure VError where
  ids : Finset PyVal
  plural : Bool
deriving DecidableEq

/-- `Block.validate_references(content)` for the block `blockId`, against the
`Reference` table `rows`.  `content or self.get_content()` picks the explicit
argument unless it is falsy (`none` or the empty string), else the block's
own content.  The filter `Reference.objects.filter(id__in=reference_ids,
containing_block=self)` matches rows whose `int` id equals the Django-coerced
value of some member of the findall set; `reference_ids.difference(ids)`
is a Python set difference between `str` captures and `int` row ids. -/
def validate_references (rows : List RefRow) (blockId : Nat)
    (content : Option String) (ownContent : String) : Except VError Unit :=
  let text :=
    match content with
    | some c => if c == "" then ownContent else c
    | none => ownContent
  let referenceIds : Finset PyVal := find_references text
  let references : List RefRow :=
    rows.filter (fun r =>
      decide (∃ v ∈ referenceIds, pyToNat v = some r.id) && r.containingBlock == blockId)
  if references.length ≠ referenceIds.card then
    let ids : List PyVal := references.map (fun r => PyVal.int r.id)
    let missingIds : Finset PyVal := referenceIds.filter (fun v => v ∉ ids)
    if missingIds = ∅ then .ok ()
    else .error ⟨missingIds, missingIds.card ≠ 1⟩
  else .ok ()

/-- The fields of a `Block` touched by `publish`. -/
structure BlockRec where
  id : Nat
  parentPage : Nat
  position : Nat
  published : Bool
  content : String
deriving DecidableEq, Repr

/-- `Block.publish`: run `validate_references()` (on the block's own content);
a raised error propagates before `self.published = True` runs, so the block
is returned unchanged next to the error; otherwise `published` is set. -/
def block_publish (rows : List RefRow) (b : BlockRec) : Option VError × BlockRec :=
  match validate_references rows b.id none b.content with
  | .error e => (some e, b)
  | .ok _ => (none, { b with published := true })

/-- The target fields of a `Reference` row checked by `Reference._validate`. -/
structure RefTargets where
  referencedBlock : Option Nat
  referencedPage : Option Nat
deriving DecidableEq, Repr

/-- Python `(self.referenced_block, self.referenced_page).count(None)`. -/
def noneCount (r : RefTargets) : Nat :=
  (if r.referencedBlock = none then 1 else 0) + (if r.referencedPage = none then 1 else 0)

/-- `Reference._validate`: exactly one of the two targets must be unset. -/
def reference_validate (r : RefTargets) : Except String Unit :=
  if noneCount r ≠ 1 then
    .error ("`Reference`s must refer to either a `Page` or a `Block`.")
  else .ok ()

/-- `Reference.save`: `_validate` runs first and a raised error aborts the
save; on success the row is persisted. -/
def reference_save (r : RefTargets) : Except String RefTargets :=
  match reference_validate r with
  | .error e => .error e
  | .ok _ => .ok r

/-- Ascending-position sortedness (proof-side abbreviation). -/
def PosSorted (l : List Blk) : Prop :=
  l.Pairwise (fun x y => x.position ≤ y.position)

/-! ## Theorems -/

theorem str_length_pos {s : String} (h : s ≠ "") : 0 < s.length := by
  rcases Nat.eq_zero_or_pos s.length with h0 | h0
  · exact absurd (by cases s with
      | mk data => cases data with
        | nil => rfl
        | cons c cs => simp [String.length] at h0) h
  · exact h0

theorem pyJoin_append_singleton (sep x : String) (ps : List String) :
    pyJoin sep (ps ++ [x]) = if ps = [] then x else pyJoin sep ps ++ sep ++ x := by
  induction ps with
  | nil => simp [pyJoin]
  | cons s rest ih =>
    cases rest with
    | nil => simp [pyJoin]
    | cons s2 rest2 =>
      simp only [List.cons_append, List.append_eq, pyJoin] at ih ⊢
      rw [ih]
      simp [String.append_assoc]

theorem pyJoin_ne_empty (sep : String) (ps : List String) (hne : ps ≠ [])
    (h : ∀ s ∈ ps, s ≠ "") : pyJoin sep ps ≠ "" := by
  intro hcontra
  have hlen : 0 < (pyJoin sep ps).length := by
    cases ps with
    | nil => exact absurd rfl hne
    | cons s rest =>
      have hs : 0 < s.length := str_length_pos (h s (by simp))
      cases rest with
      | nil => simpa [pyJoin] using hs
      | cons s2 rest2 =>
        simp only [pyJoin, String.length_append]
        omega
  rw [hcontra] at hlen
  simp [String.length] at hlen

/-- C9: a `Reference` fails to save when both of `referenced_page`,
`referenced_block` are set and when neither is set, and saving succeeds
exactly when one of the two targets is set, so every persisted `Reference`
refers to exactly one of a `Page` or a `Block`. -/
theorem reference_save_exactly_one_target (r : RefTargets) :
    (r.referencedBlock ≠ none → r.referencedPage ≠ none →
      reference_save r = .error ("`Reference`s must refer to either a `Page` or a `Block`.")) ∧
    (r.referencedBlock = none → r.referencedPage = none →
      reference_save r = .error ("`Reference`s must refer to either a `Page` or a `Block`.")) ∧
    (reference_save r = .ok r ↔
      ((r.referencedBlock = none ∧ r.referencedPage ≠ none) ∨
        (r.referencedBlock ≠ none ∧ r.referencedPage = none))) := by
  obtain ⟨b, p⟩ := r
  cases b <;> cases p <;>
    simp [reference_save, reference_validate, noneCount]

/-- Witness for C9 at concrete rows: both targets set fails, neither set
fails, exactly one set saves. -/
theorem reference_save_exactly_one_target_witness :
    reference_save ⟨some 1, some 2⟩ =
        .error ("`Reference`s must refer to either a `Page` or a `Block`.") ∧
      reference_save ⟨none, none⟩ =
        .error ("`Reference`s must refer to either a `Page` or a `Block`.") ∧
      reference_save ⟨some 1, none⟩ = .ok ⟨some 1, none⟩ :=
  ⟨(reference_save_exactly_one_target ⟨some 1, some 2⟩).1 (by decide) (by decide),
   (reference_save_exactly_one_target ⟨none, none⟩).2.1 rfl rfl,
   (reference_save_exactly_one_target ⟨some 1, none⟩).2.2.mpr (Or.inr ⟨by decide, rfl⟩)⟩

theorem assignPositions_cons (s g : Nat) (b : Blk) (bs : List Blk) :
    assignPositions s g (b :: bs) =
      { b with position := s } :: assignPositions (s + g) g bs := rfl

theorem assignPositions_map_id (g : Nat) :
    ∀ (l : List Blk) (s : Nat), (assignPositions s g l).map Blk.id = l.map Blk.id
  | [], _ => rfl
  | b :: bs, s => by
    simp only [assignPositions, List.map_cons]
    rw [assignPositions_map_id g bs (s + g)]

theorem assignPositions_length (g : Nat) :
    ∀ (l : List Blk) (s : Nat), (assignPositions s g l).length = l.length
  | [], _ => rfl
  | b :: bs, s => by
    simp only [assignPositions, List.length_cons]
    rw [assignPositions_length g bs (s + g)]

theorem assignPositions_chain (g : Nat) :
    ∀ (l : List Blk) (s : Nat),
      List.Chain' (fun u v => v.position = u.position + g) (assignPositions s g l)
  | [], _ => List.chain'_nil
  | [b], s => List.chain'_singleton _
  | b :: c :: cs, s => by
    have ih := assignPositions_chain g (c :: cs) (s + g)
    rw [assignPositions_cons, assignPositions_cons]
    rw [assignPositions_cons] at ih
    exact (List.chain'_cons).mpr ⟨rfl, ih⟩

theorem assignPositions_bounds (g : Nat) :
    ∀ (l : List Blk) (s : Nat), ∀ x ∈ assignPositions s g l,
      s ≤ x.position ∧ x.position + g ≤ s + l.length * g
  | [], _, x, hx => absurd hx (List.not_mem_nil x)
  | b :: bs, s, x, hx => by
    rw [assignPositions_cons] at hx
    rcases List.mem_cons.mp hx with hx | hx
    · subst hx
      show s ≤ s ∧ s + g ≤ s + (b :: bs).length * g
      refine ⟨le_refl _, ?_⟩
      rw [List.length_cons, Nat.succ_mul]
      omega
    · obtain ⟨h1, h2⟩ := assignPositions_bounds g bs (s + g) x hx
      refine ⟨by omega, ?_⟩
      rw [List.length_cons, Nat.succ_mul]
      omega

theorem chain_pos_pairwise {g : Nat} (hg : 1 ≤ g) :
    ∀ {l : List Blk}, List.Chain' (fun u v => v.position = u.position + g) l →
      l.Pairwise (fun u v => u.position < v.position)
  | [], _ => List.Pairwise.nil
  | [b], _ => by simp
  | b :: c :: cs, h => by
    rw [List.chain'_cons] at h
    have ih := chain_pos_pairwise hg h.2
    refine List.Pairwise.cons ?_ ih
    intro x hx
    rcases List.mem_cons.mp hx with hx | hx
    · subst hx; omega
    · have := (List.pairwise_cons.mp ih).1 x hx
      omega

theorem insertByPos_perm (b : Blk) (l : List Blk) : (insertByPos b l).Perm (b :: l) := by
  induction l with
  | nil => simp [insertByPos]
  | cons c cs ih =>
    by_cases h : b.position ≤ c.position
    · simp [insertByPos, h]
    · simpa [insertByPos, h] using (ih.cons c).trans (List.Perm.swap b c cs)

theorem mem_insertByPos {x b : Blk} {l : List Blk} :
    x ∈ insertByPos b l ↔ x = b ∨ x ∈ l := by
  rw [(insertByPos_perm b l).mem_iff]
  simp

theorem sortByPos_perm (l : List Blk) : (sortByPos l).Perm l := by
  induction l with
  | nil => simp [sortByPos]
  | cons b bs ih =>
    exact (insertByPos_perm b (sortByPos bs)).trans (ih.cons b)

theorem insertByPos_sorted {l : List Blk} (b : Blk) (hl : PosSorted l) :
    PosSorted (insertByPos b l) := by
  induction l with
  | nil => simp [insertByPos, PosSorted]
  | cons c cs ih =>
    rw [PosSorted, List.pairwise_cons] at hl
    by_cases h : b.position ≤ c.position
    · rw [insertByPos]
      simp only [h, if_true]
      refine List.Pairwise.cons ?_ (List.Pairwise.cons hl.1 hl.2)
      intro x hx
      rcases List.mem_cons.mp hx with hx | hx
      · subst hx; exact h
      · exact le_trans h (hl.1 x hx)
    · rw [insertByPos]
      simp only [h, if_false]
      refine List.Pairwise.cons ?_ (ih hl.2)
      intro x hx
      rcases mem_insertByPos.mp hx with hx | hx
      · subst hx; omega
      · exact hl.1 x hx

theorem sortByPos_sorted (l : List Blk) : PosSorted (sortByPos l) := by
  induction l with
  | nil => simp [sortByPos, PosSorted]
  | cons b bs ih => exact insertByPos_sorted b ih

theorem sortByPos_eq_self {l : List Blk} (hl : PosSorted l) : sortByPos l = l := by
  induction l with
  | nil => rfl
  | cons c cs ih =>
    rw [PosSorted, List.pairwise_cons] at hl
    rw [sortByPos, ih hl.2]
    cases cs with
    | nil => rfl
    | cons d ds => simp [insertByPos, hl.1 d (by simp)]

theorem find?_id_of_nodup {blocks : List Blk} {a : Blk}
    (hids : (blocks.map Blk.id).Nodup) (ha : a ∈ blocks) :
    List.find? (fun b => b.id == a.id) blocks = some a := by
  induction blocks with
  | nil => cases ha
  | cons h t ih =>
    simp only [List.map_cons, List.nodup_cons] at hids
    by_cases hid : h.id = a.id
    · have : a = h := by
        rcases List.mem_cons.mp ha with ha | ha
        · exact ha
        · exact absurd (hid ▸ List.mem_map_of_mem Blk.id ha) hids.1
      subst this
      simp [List.find?, hid]
    · have hat : a ∈ t := by
        rcases List.mem_cons.mp ha with ha | ha
        · exact absurd (congrArg Blk.id ha.symm) hid
        · exact ha
      have : (h.id == a.id) = false := by simpa using hid
      simp [List.find?, this, ih hids.2 hat]

/-- A position-sorted permutation of a set containing a unique minimum starts
with that minimum. -/
theorem sorted_perm_cons {l S : List Blk} (hs : PosSorted l) (hp : l.Perm S)
    (a : Blk) (haS : a ∈ S) (hmin : ∀ c ∈ S, a.position ≤ c.position)
    (huniq : ∀ c ∈ S, c.position = a.position → c = a) :
    ∃ t, l = a :: t ∧ t.Perm (S.erase a) := by
  cases l with
  | nil =>
    exact absurd (hp.mem_iff.mpr haS) (List.not_mem_nil a)
  | cons h t =>
    rw [PosSorted, List.pairwise_cons] at hs
    have hhS : h ∈ S := hp.mem_iff.mp (by simp)
    have hha : h = a := by
      rcases List.mem_cons.mp (hp.mem_iff.mpr haS) with hah | hat
      · exact hah.symm
      · exact huniq h hhS (le_antisymm (hs.1 a hat) (hmin h hhS))
    subst hha
    refine ⟨t, rfl, ?_⟩
    have h2 := hp.symm.erase h
    rw [List.erase_cons_head] at h2
    exact h2.symm

/-- The filtered, position-ordered queryset read by `get_position_after`
starts with the anchor and its immediate successor. -/
theorem blocksAfter_eq_anchor_cons {blocks : List Blk} {a b : Blk}
    (hids : (blocks.map Blk.id).Nodup) (hpos : (blocks.map Blk.position).Nodup)
    (ha : a ∈ blocks) (hb : b ∈ blocks) (hab : a.position < b.position)
    (himm : ∀ c ∈ blocks, ¬(a.position < c.position ∧ c.position < b.position)) :
    ∃ t2, sortByPos (blocks.filter (fun c => a.position ≤ c.position)) = a :: b :: t2 := by
  have hinj := List.inj_on_of_nodup_map hpos
  have hmemS : ∀ c : Blk, c ∈ blocks.filter (fun c => a.position ≤ c.position) ↔
      c ∈ blocks ∧ a.position ≤ c.position := by
    intro c; simp [List.mem_filter]
  obtain ⟨t, hST, htperm⟩ :=
    sorted_perm_cons (sortByPos_sorted _) (sortByPos_perm _) a
      ((hmemS a).mpr ⟨ha, le_refl _⟩)
      (fun c hc => ((hmemS c).mp hc).2)
      (fun c hc hcpos => hinj ((hmemS c).mp hc).1 ha hcpos)
  have hSnd : (blocks.filter (fun c => a.position ≤ c.position)).Nodup :=
    (hids.of_map).filter _
  have hbne : b ≠ a := by
    intro hcontra
    rw [hcontra] at hab
    exact lt_irrefl _ hab
  have hbe : b ∈ (blocks.filter (fun c => a.position ≤ c.position)).erase a :=
    (hSnd.mem_erase_iff).mpr ⟨hbne, (hmemS b).mpr ⟨hb, le_of_lt hab⟩⟩
  have hsort_t : PosSorted t := by
    have := sortByPos_sorted (blocks.filter (fun c => a.position ≤ c.position))
    rw [hST, PosSorted, List.pairwise_cons] at this
    exact this.2
  obtain ⟨t2, hT, _⟩ :=
    sorted_perm_cons hsort_t htperm b hbe
      (by
        intro c hc
        obtain ⟨hcne, hcS⟩ := (hSnd.mem_erase_iff).mp hc
        obtain ⟨hcb, hcge⟩ := (hmemS c).mp hcS
        have hgt : a.position < c.position :=
          lt_of_le_of_ne hcge (fun hcontra => hcne (hinj hcb ha hcontra.symm))
        have := himm c hcb
        omega)
      (by
        intro c hc hcpos
        exact hinj (((hmemS c).mp ((hSnd.mem_erase_iff).mp hc).2)).1 hb hcpos)
  exact ⟨t2, by rw [hST, hT]⟩

/-- C3: with distinct positions, an interior anchor whose immediate successor
is at distance at least 2 yields the integer midpoint, strictly between the
two, without touching the block set. -/
theorem get_position_after_interior_midpoint
    (blocks : List Blk) (a b : Blk)
    (hids : (blocks.map Blk.id).Nodup) (hpos : (blocks.map Blk.position).Nodup)
    (ha : a ∈ blocks) (hb : b ∈ blocks) (hab : a.position < b.position)
    (himm : ∀ c ∈ blocks, ¬(a.position < c.position ∧ c.position < b.position))
    (hgap : 2 ≤ b.position - a.position) :
    get_position_after 0 blocks (some a.id) =
        .ok ((a.position + b.position) / 2) blocks ∧
      a.position < (a.position + b.position) / 2 ∧
      (a.position + b.position) / 2 < b.position := by
  obtain ⟨t2, hSA⟩ := blocksAfter_eq_anchor_cons hids hpos ha hb hab himm
  have hfind := find?_id_of_nodup hids ha
  have hcond : ¬(b.position - a.position < 2) := by omega
  refine ⟨?_, by omega, by omega⟩
  rw [get_position_after, hfind]
  simp only [hSA]
  simp [hcond]

/-- Witness for C3: blocks at positions 0 and 10, anchored after the first,
give midpoint 5. -/
theorem get_position_after_interior_midpoint_witness :
    get_position_after 0 [⟨1, 0⟩, ⟨2, 10⟩] (some 1) = .ok 5 [⟨1, 0⟩, ⟨2, 10⟩] ∧
      0 < 5 ∧ 5 < 10 :=
  get_position_after_interior_midpoint [⟨1, 0⟩, ⟨2, 10⟩] ⟨1, 0⟩ ⟨2, 10⟩
    (by decide) (by decide) (by decide) (by decide) (by decide)
    (by decide) (by decide)

theorem length_le_one_of_all_eq {l : List Nat} {p : Nat} (hnd : l.Nodup)
    (h : ∀ x ∈ l, x = p) : l.length ≤ 1 := by
  match l with
  | [] => simp
  | [x] => simp
  | x :: y :: rest =>
    rw [List.nodup_cons] at hnd
    exact absurd ((h x (by simp)).trans (h y (by simp)).symm)
      (fun hxy => hnd.1 (hxy ▸ List.mem_cons_self y rest))

theorem one_lt_length_of_two_mem {l : List Nat} {x y : Nat} (hx : x ∈ l)
    (hy : y ∈ l) (hxy : x ≠ y) : 1 < l.length := by
  match l with
  | [] => cases hx
  | [z] =>
    rw [List.mem_singleton] at hx hy
    exact absurd (hx.trans hy.symm) hxy
  | _ :: _ :: _ => simp

theorem redistribute_positions_cons (db : List BlkRow) (t0 : BlkRow) (rest : List BlkRow) :
    redistribute_positions db (t0 :: rest) =
      if 1 < (((t0 :: rest).map (fun b => b.parentPage)).dedup).length then
        .error ("You may only redistribute blocks within one page at a time.")
      else if (db.filter (fun b => b.parentPage == t0.parentPage)).length ≠
          (t0 :: rest).length then
        .error ("You must redistribute all blocks from a page at once.")
      else
        .ok (assignRowPositions 3277 (26214 / (t0 :: rest).length)
          (sortRowsByPos (t0 :: rest))) := rfl

/-- C4: `redistribute_positions` raises a usage error on a queryset spanning
more than one page, and on a queryset that is not the complete block set of
its page; both errors are raised before the assignment loop, so no position
is reassigned (the `error` result carries no updated rows). -/
theorem redistribute_positions_misuse (db target : List BlkRow)
    (hsub : target.Sublist db) :
    ((∃ x ∈ target, ∃ y ∈ target, x.parentPage ≠ y.parentPage) →
        redistribute_positions db target =
          .error ("You may only redistribute blocks within one page at a time.")) ∧
      (∀ p : Nat, target ≠ [] → (∀ x ∈ target, x.parentPage = p) →
        (∃ r ∈ db, r.parentPage = p ∧ r ∉ target) →
        redistribute_positions db target =
          .error ("You must redistribute all blocks from a page at once.")) := by
  constructor
  · rintro ⟨x, hx, y, hy, hxy⟩
    match target, hx with
    | t0 :: rest, hx =>
      have hlen : 1 < (((t0 :: rest).map (fun b => b.parentPage)).dedup).length :=
        one_lt_length_of_two_mem
          (List.mem_dedup.mpr (List.mem_map_of_mem _ hx))
          (List.mem_dedup.mpr (List.mem_map_of_mem _ hy)) hxy
      rw [redistribute_positions_cons, if_pos hlen]
  · rintro p hne0 hall ⟨r, hrdb, hrp, hrt⟩
    match target, hne0, hsub, hall with
    | t0 :: rest, _, hsub, hall =>
      have hded : ¬(1 < (((t0 :: rest).map (fun b => b.parentPage)).dedup).length) := by
        have := length_le_one_of_all_eq (l := ((t0 :: rest).map (fun b => b.parentPage)).dedup)
          (List.nodup_dedup _)
          (by
            intro x hx
            obtain ⟨c, hc, hcx⟩ := List.mem_map.mp (List.mem_dedup.mp hx)
            exact hcx ▸ hall c hc)
        omega
      have ht0 : t0.parentPage = p := hall t0 (by simp)
      have hfsub : (t0 :: rest).Sublist (db.filter (fun b => b.parentPage == p)) := by
        have h1 : (t0 :: rest).filter (fun b => b.parentPage == p) = t0 :: rest :=
          List.filter_eq_self.mpr (fun x hx => by simp [hall x hx])
        exact h1 ▸ hsub.filter _
      have hrF : r ∈ db.filter (fun b => b.parentPage == p) :=
        List.mem_filter.mpr ⟨hrdb, by simp [hrp]⟩
      have hne : (db.filter (fun b => b.parentPage == p)).length ≠ (t0 :: rest).length := by
        intro hcontra
        exact hrt ((hfsub.eq_of_length hcontra.symm) ▸ hrF)
      rw [redistribute_positions_cons, if_neg hded, if_pos (by rw [ht0]; exact hne)]

/-- In a list whose positions step by exactly `g`, the `position >= anchor`
filter returns the suffix starting at the anchor. -/
theorem filter_ge_suffix {g : Nat} (hg : 1 ≤ g) :
    ∀ {rb : List Blk}, List.Chain' (fun u v => v.position = u.position + g) rb →
      ∀ a ∈ rb, rb.filter (fun c => a.position ≤ c.position) = [a] ∨
        ∃ y t2, rb.filter (fun c => a.position ≤ c.position) = a :: y :: t2 ∧
          y.position = a.position + g
  | [], _, a, ha => absurd ha (List.not_mem_nil a)
  | x :: rest, h, a, ha => by
    have hpw := chain_pos_pairwise hg h
    rw [List.pairwise_cons] at hpw
    rcases List.mem_cons.mp ha with ha | ha
    · subst ha
      have hrest : rest.filter (fun c => a.position ≤ c.position) = rest :=
        List.filter_eq_self.mpr (fun c hc => by
          simp only [decide_eq_true_eq]
          exact le_of_lt (hpw.1 c hc))
      rw [List.filter_cons_of_pos (by simp)]
      rw [hrest]
      cases rest with
      | nil => exact Or.inl rfl
      | cons y t2 =>
        exact Or.inr ⟨y, t2, rfl, (List.chain'_cons.mp h).1⟩
    · have hxa : x.position < a.position := hpw.1 a ha
      rw [List.filter_cons_of_neg (by simp only [decide_eq_true_eq]; omega)]
      exact filter_ge_suffix hg h.tail a ha

/-- On a block set whose positions step by a uniform gap of at least 2 and
stay below the maximum, `get_position_after` answers any anchor with no
further redistribution (fuel 0) and an unchanged block set. -/
theorem get_position_after_ok_of_gapped {g : Nat} (hg : 2 ≤ g) (rb : List Blk)
    (hids : (rb.map Blk.id).Nodup)
    (hchain : List.Chain' (fun u v => v.position = u.position + g) rb)
    (hbound : ∀ x ∈ rb, x.position ≠ 32767)
    (a : Blk) (ha : a ∈ rb) :
    ∃ p, get_position_after 0 rb (some a.id) = .ok p rb := by
  have hfind := find?_id_of_nodup hids ha
  have hpw := chain_pos_pairwise (by omega) hchain
  have hsorted : PosSorted rb := hpw.imp le_of_lt
  rcases filter_ge_suffix (by omega) hchain a ha with hfil | ⟨y, t2, hfil, hy⟩
  · refine ⟨a.position + 100, ?_⟩
    rw [get_position_after, hfind]
    have hs : sortByPos (rb.filter (fun c => a.position ≤ c.position)) = [a] := by
      rw [hfil]; rfl
    simp only [hs]
    have hne : (a.position == 32767) = false := by simpa using hbound a ha
    simp [hne]
  · refine ⟨(a.position + y.position) / 2, ?_⟩
    rw [get_position_after, hfind]
    have hfs : PosSorted (rb.filter (fun c => a.position ≤ c.position)) :=
      hsorted.filter _
    have hs : sortByPos (rb.filter (fun c => a.position ≤ c.position)) = a :: y :: t2 := by
      rw [sortByPos_eq_self hfs, hfil]
    simp only [hs]
    have hcond : ¬(y.position - a.position < 2) := by omega
    simp [hcond]

/-- Witness for C4: a two-page queryset errors; a one-block strict subset of
a two-block page errors. -/
theorem redistribute_positions_misuse_witness :
    redistribute_positions [⟨1, 1, 0⟩, ⟨2, 2, 0⟩] [⟨1, 1, 0⟩, ⟨2, 2, 0⟩] =
        .error ("You may only redistribute blocks within one page at a time.") ∧
      redistribute_positions [⟨1, 1, 0⟩, ⟨2, 1, 1⟩] [⟨1, 1, 0⟩] =
        .error ("You must redistribute all blocks from a page at once.") :=
  ⟨(redistribute_positions_misuse [⟨1, 1, 0⟩, ⟨2, 2, 0⟩] [⟨1, 1, 0⟩, ⟨2, 2, 0⟩]
      (List.Sublist.refl _)).1
      ⟨⟨1, 1, 0⟩, by decide, ⟨2, 2, 0⟩, by decide, by decide⟩,
   (redistribute_positions_misuse [⟨1, 1, 0⟩, ⟨2, 1, 1⟩] [⟨1, 1, 0⟩]
      (by decide)).2 1 (by decide)
      (by decide)
      ⟨⟨2, 1, 1⟩, by decide, rfl, by decide⟩⟩

/-- C5 (amended): for pages with at most 13107 blocks, one redistribution
followed by one retry of `get_position_after` always succeeds: the
redistributed positions step by `26214 // count >= 2` and stay well below
32767, so the retried call (given zero retry budget here) returns a position
without redistributing again and leaves the block set unchanged.  For at
least 13108 blocks the redistributed gap is at most 1 and the retry
redistributes again (see the counterexample). -/
theorem redistribute_then_single_retry
    (blocks : List Blk) (hids : (blocks.map Blk.id).Nodup)
    (hn : blocks.length ≤ 13107) (a : Blk) (ha : a ∈ blocks) :
    ∃ p, get_position_after 0 (redistributePagePositions blocks) (some a.id) =
      .ok p (redistributePagePositions blocks) := by
  have hne : blocks ≠ [] := by rintro rfl; cases ha
  have hlen1 : 1 ≤ blocks.length := List.length_pos.mpr hne
  have hg : 2 ≤ 26214 / blocks.length := by
    rw [Nat.le_div_iff_mul_le (by omega)]
    omega
  have hred : redistributePagePositions blocks =
      assignPositions 3277 (26214 / blocks.length) (sortByPos blocks) := by
    rw [redistributePagePositions, if_neg (by simp [hne])]
  have hids_rb :
      ((assignPositions 3277 (26214 / blocks.length) (sortByPos blocks)).map Blk.id).Nodup := by
    rw [assignPositions_map_id]
    exact ((sortByPos_perm blocks).map Blk.id).nodup_iff.mpr hids
  have hchain := assignPositions_chain (26214 / blocks.length) (sortByPos blocks) 3277
  have hbound : ∀ x ∈ assignPositions 3277 (26214 / blocks.length) (sortByPos blocks),
      x.position ≠ 32767 := by
    intro x hx
    obtain ⟨h1, h2⟩ := assignPositions_bounds _ _ _ x hx
    have hng : (sortByPos blocks).length * (26214 / blocks.length) ≤ 26214 := by
      rw [(sortByPos_perm blocks).length_eq, Nat.mul_comm]
      exact Nat.div_mul_le_self _ _
    omega
  have hmem : a.id ∈ (assignPositions 3277 (26214 / blocks.length) (sortByPos blocks)).map Blk.id := by
    rw [assignPositions_map_id]
    exact ((sortByPos_perm blocks).map Blk.id).mem_iff.mpr (List.mem_map_of_mem _ ha)
  obtain ⟨a2, ha2, hid2⟩ := List.mem_map.mp hmem
  obtain ⟨p, hp⟩ := get_position_after_ok_of_gapped hg _ hids_rb hchain hbound a2 ha2
  rw [hred, ← hid2]
  exact ⟨p, hp⟩

/-- When positions step by exactly 1, an anchor with any successor makes
`get_position_after` redistribute and retry, exhausting a zero retry
budget. -/
theorem gap_one_retry_exhausts {rb : List Blk}
    (hids : (rb.map Blk.id).Nodup)
    (hchain : List.Chain' (fun u v => v.position = u.position + 1) rb)
    (a : Blk) (ha : a ∈ rb) (b : Blk) (hb : b ∈ rb) (hab : a.position < b.position) :
    get_position_after 0 rb (some a.id) = .outOfFuel := by
  have hfind := find?_id_of_nodup hids ha
  rcases filter_ge_suffix (le_refl 1) hchain a ha with hfil | ⟨y, t2, hfil, hy⟩
  · exfalso
    have hbf : b ∈ rb.filter (fun c => a.position ≤ c.position) :=
      List.mem_filter.mpr ⟨hb, by simp [le_of_lt hab]⟩
    rw [hfil, List.mem_singleton] at hbf
    rw [hbf] at hab
    exact lt_irrefl _ hab
  · rw [get_position_after, hfind]
    have hfs : PosSorted (rb.filter (fun c => a.position ≤ c.position)) :=
      ((chain_pos_pairwise (le_refl 1) hchain).imp le_of_lt).filter _
    have hs : sortByPos (rb.filter (fun c => a.position ≤ c.position)) = a :: y :: t2 := by
      rw [sortByPos_eq_self hfs, hfil]
    simp only [hs]
    have hcond : y.position - a.position < 2 := by omega
    simp [hcond]

/-- Counterexample to C5 as stated: on a page with 13108 blocks the
redistributed gap is `26214 // 13108 = 1`, so the retried
`get_position_after` call does *not* find a gap of at least 2 — it
redistributes and retries again (here: runs out of its zero retry budget)
instead of returning. -/
theorem redistribute_retry_gap_counterexample :
    get_position_after 0
      (redistributePagePositions
        (⟨0, 0⟩ :: ⟨1, 1⟩ :: (List.range 13106).map (fun i => (⟨i + 2, i + 2⟩ : Blk))))
      (some 0) = .outOfFuel := by
  set tail := (List.range 13106).map (fun i => (⟨i + 2, i + 2⟩ : Blk)) with htail
  set L := (⟨0, 0⟩ : Blk) :: ⟨1, 1⟩ :: tail with hL
  have htail_mem : ∀ x ∈ tail, 1 < x.position := by
    intro x hx
    obtain ⟨i, _, hi⟩ := List.mem_map.mp hx
    rw [← hi]
    show 1 < i + 2
    omega
  have hsorted : PosSorted L := by
    rw [hL, PosSorted, List.pairwise_cons]
    refine ⟨?_, ?_⟩
    · intro x hx
      rcases List.mem_cons.mp hx with hx | hx
      · rw [hx]; decide
      · show (0 : Nat) ≤ x.position
        exact Nat.zero_le _
    · rw [List.pairwise_cons]
      refine ⟨fun x hx => le_of_lt (htail_mem x hx), ?_⟩
      rw [htail, List.pairwise_map]
      refine (List.pairwise_lt_range 13106).imp ?_
      intro a b h
      show a + 2 ≤ b + 2
      omega
  have hlen : L.length = 13108 := by
    rw [hL, htail]
    simp
  have hred : redistributePagePositions L = assignPositions 3277 1 L := by
    rw [redistributePagePositions, if_neg (by rw [hL]; simp), sortByPos_eq_self hsorted, hlen]
  have hexp : assignPositions 3277 1 L =
      ⟨0, 3277⟩ :: ⟨1, 3278⟩ :: assignPositions 3279 1 tail := by
    rw [hL, assignPositions_cons, assignPositions_cons]
  have hids : ((assignPositions 3277 1 L).map Blk.id).Nodup := by
    rw [assignPositions_map_id, hL, htail]
    simp only [List.map_cons, List.map_map, List.nodup_cons]
    refine ⟨?_, ?_, ?_⟩
    · intro hcontra
      rcases List.mem_cons.mp hcontra with h | h
      · exact absurd h (by norm_num)
      · obtain ⟨i, _, hi⟩ := List.mem_map.mp h
        simp at hi
    · intro hcontra
      obtain ⟨i, _, hi⟩ := List.mem_map.mp hcontra
      simp at hi
    · refine List.Nodup.map ?_ (List.nodup_range 13106)
      intro x y hxy
      simpa using hxy
  have hchain := assignPositions_chain 1 L 3277
  rw [hred]
  have := gap_one_retry_exhausts hids hchain ⟨0, 3277⟩
    (by rw [hexp]; exact List.mem_cons_self _ _) ⟨1, 3278⟩
    (by rw [hexp]; exact List.mem_cons.mpr (Or.inr (List.mem_cons_self _ _)))
    (by decide)
  exact this

/-- Witness for C5 (amended) at a two-block page with no usable gap: the
retry after redistribution succeeds with zero remaining retry budget. -/
theorem redistribute_then_single_retry_witness :
    ∃ p, get_position_after 0 (redistributePagePositions [⟨1, 0⟩, ⟨2, 1⟩]) (some 1) =
      .ok p (redistributePagePositions [⟨1, 0⟩, ⟨2, 1⟩]) :=
  redistribute_then_single_retry [⟨1, 0⟩, ⟨2, 1⟩] (by decide) (by decide)
    ⟨1, 0⟩ (by decide)

/-- Counterexample to C8 as stated: with a sole block at position 0,
`get_position_after(that_block)` returns 100 with the block set *unchanged* —
no redistribution is triggered (a redistribution would have moved the block
to position 3277, and 100 is not greater than 3277).  The position-0
redistribution only happens on the `after=None` path via
`get_first_position`. -/
theorem get_position_after_sole_zero_counterexample :
    get_position_after 1 [⟨1, 0⟩] (some 1) = .ok 100 [⟨1, 0⟩] ∧
      redistributePagePositions [⟨1, 0⟩] = [⟨1, 3277⟩] ∧
      ([⟨1, 0⟩] : List Blk) ≠ [⟨1, 3277⟩] ∧ ¬(3277 < 100) := by
  refine ⟨?_, ?_, ?_, ?_⟩ <;> decide

/-- C8 (amended): for a page whose sole block has position 0, calling
`get_position_after(that_block)` performs no redistribution and returns
`anchor.position + 100 = 100`, which is strictly greater than the anchor's
unchanged position and at most the maximum value 32767. -/
theorem get_position_after_sole_zero_block (b : Blk) (hb : b.position = 0) :
    get_position_after 1 [b] (some b.id) = .ok (b.position + 100) [b] ∧
      b.position < b.position + 100 ∧ b.position + 100 ≤ 32767 := by
  refine ⟨?_, by omega, by omega⟩
  rw [get_position_after]
  have hfind : List.find? (fun c => c.id == b.id) [b] = some b := by
    simp [List.find?]
  rw [hfind]
  have hs : sortByPos ([b].filter (fun c => b.position ≤ c.position)) = [b] := by
    rw [List.filter_cons_of_pos (by simp)]
    rfl
  simp only [hs]
  simp [hb]

/-- Witness for C8 (amended) at the block ⟨1, 0⟩. -/
theorem get_position_after_sole_zero_block_witness :
    get_position_after 1 [⟨1, 0⟩] (some 1) = .ok (0 + 100) [⟨1, 0⟩] ∧
      0 < 0 + 100 ∧ 0 + 100 ≤ 32767 :=
  get_position_after_sole_zero_block ⟨1, 0⟩ rfl

theorem iterParent_none (db : List PageRow) : ∀ n, iterParent db n none = none
  | 0 => rfl
  | _ + 1 => rfl

theorem iterParent_succ (db : List PageRow) (n i : Nat) :
    iterParent db (n + 1) (some i) = iterParent db n (parentOf db i) := rfl

/-- With a strictly decreasing depth measure, any nonempty parent-chain hop
strictly shrinks the depth. -/
theorem iterParent_depth {db : List PageRow} {depth : Nat → Nat}
    (hdep : ∀ i j, parentOf db i = some j → depth j < depth i) :
    ∀ n q r, 0 < n → iterParent db n (some q) = some r → depth r < depth q := by
  intro n
  induction n with
  | zero => intro q r h; omega
  | succ m ih =>
    intro q r _ hit
    rw [iterParent_succ] at hit
    match hpq : parentOf db q with
    | none =>
      rw [hpq, iterParent_none] at hit
      cases hit
    | some q2 =>
      rw [hpq] at hit
      have hq2 := hdep q q2 hpq
      match m, hit with
      | 0, hit =>
        cases hit
        exact hq2
      | m + 1, hit =>
        exact lt_trans (ih q2 r (Nat.succ_pos m) hit) hq2

/-- If the saved page's id is nowhere on the new parent chain, the validation
walk returns `ok` once given fuel exceeding the chain depth. -/
theorem walkParents_ok {db : List PageRow} {depth : Nat → Nat}
    (hdep : ∀ i j, parentOf db i = some j → depth j < depth i) (p : Nat) :
    ∀ fuel q, depth q < fuel → (∀ n, iterParent db n (some q) ≠ some p) →
      walkParents db p fuel (some q) = some .ok := by
  intro fuel
  induction fuel with
  | zero => intro q h; omega
  | succ f ih =>
    intro q hq hnohit
    have hqp : q ≠ p := fun hcontra => hnohit 0 (by subst hcontra; rfl)
    rw [walkParents]
    rw [if_neg (by simpa using hqp)]
    match hpq : parentOf db q with
    | none =>
      cases f <;> rfl
    | some q2 =>
      refine ih q2 ?_ ?_
      · have := hdep q q2 hpq
        omega
      · intro n hcontra
        exact hnohit (n + 1) (by rw [iterParent_succ, hpq]; exact hcontra)

/-- If the saved page's id lies on the new parent chain, the validation walk
raises the cycle error. -/
theorem walkParents_error {db : List PageRow} {depth : Nat → Nat}
    (hdep : ∀ i j, parentOf db i = some j → depth j < depth i) (p : Nat) :
    ∀ n q fuel, iterParent db n (some q) = some p → depth q < fuel →
      walkParents db p fuel (some q) =
        some (.error ("Pages cannot be descendants of themselves.")) := by
  intro n
  induction n with
  | zero =>
    intro q fuel hit hfuel
    cases hit
    match fuel, hfuel with
    | f + 1, _ =>
      rw [walkParents, if_pos (by simp)]
  | succ m ih =>
    intro q fuel hit hfuel
    match fuel, hfuel with
    | f + 1, hfuel =>
      by_cases hqp : q = p
      · rw [walkParents, if_pos (by simpa using hqp)]
      · rw [walkParents, if_neg (by simpa using hqp)]
        rw [iterParent_succ] at hit
        match hpq : parentOf db q with
        | none =>
          rw [hpq, iterParent_none] at hit
          cases hit
        | some q2 =>
          rw [hpq] at hit
          refine ih q2 f hit ?_
          have := hdep q q2 hpq
          omega

/-- C2: on an acyclic page table (witnessed by a strictly decreasing depth
measure), re-parenting a saved page to itself or to any of its descendants
fails with the validation error `Pages cannot be descendants of themselves.`,
while re-parenting to any non-descendant (or to top level) passes
validation.  The saved page's tracked old parent id is its stored
`parentOf db p`. -/
theorem validate_noncyclic_reparenting (db : List PageRow) (depth : Nat → Nat)
    (hdep : ∀ i j, parentOf db i = some j → depth j < depth i) (p q : Nat) :
    (validate_noncyclic_hierarchy db p true (parentOf db p) (some p) (depth p + 1) =
        some (.error ("Pages cannot be descendants of themselves."))) ∧
      (IsDescendantOf db q p →
        validate_noncyclic_hierarchy db p true (parentOf db p) (some q) (depth q + 1) =
          some (.error ("Pages cannot be descendants of themselves."))) ∧
      (¬IsDescendantOf db q p → q ≠ p →
        validate_noncyclic_hierarchy db p true (parentOf db p) (some q) (depth q + 1) =
          some .ok) ∧
      (validate_noncyclic_hierarchy db p true (parentOf db p) none (depth p + 1) =
        some .ok) := by
  refine ⟨?_, ?_, ?_, ?_⟩
  · have hnp : parentOf db p ≠ some p := by
      intro hcontra
      exact absurd (hdep p p hcontra) (lt_irrefl _)
    rw [validate_noncyclic_hierarchy, if_neg (by simpa using hnp)]
    rw [walkParents, if_pos (by simp)]
  · rintro ⟨n, hn, hit⟩
    have hnq : parentOf db p ≠ some q := by
      intro hcontra
      have h1 := hdep p q hcontra
      have h2 := iterParent_depth hdep n q p hn hit
      omega
    rw [validate_noncyclic_hierarchy, if_neg (by simpa using hnq)]
    exact walkParents_error hdep p n q (depth q + 1) hit (by omega)
  · intro hdesc hqp
    by_cases hold : parentOf db p = some q
    · rw [validate_noncyclic_hierarchy, if_pos (by simpa using hold)]
    · rw [validate_noncyclic_hierarchy, if_neg (by simpa using hold)]
      refine walkParents_ok hdep p (depth q + 1) q (by omega) ?_
      intro n hcontra
      match n, hcontra with
      | 0, hcontra =>
        have hqp2 : some q = some p := hcontra
        exact hqp (Option.some.inj hqp2)
      | m + 1, hcontra =>
        exact hdesc ⟨m + 1, Nat.succ_pos m, hcontra⟩
  · by_cases hold : parentOf db p = none
    · rw [validate_noncyclic_hierarchy, if_pos (by simpa using hold)]
    · rw [validate_noncyclic_hierarchy, if_neg (by simpa using hold)]

/-- Witness for C2 at the table `1 <- 2` (page 2's parent is page 1), with
`depth = id`: making page 1 its own parent fails, making it a child of its
descendant 2 fails, re-parenting 2 under the unrelated root 3 passes, and
re-parenting to top level passes. -/
theorem validate_noncyclic_reparenting_witness :
    (validate_noncyclic_hierarchy [⟨1, none⟩, ⟨2, some 1⟩, ⟨3, none⟩] 1 true none
        (some 1) 2 =
      some (.error ("Pages cannot be descendants of themselves."))) ∧
      (validate_noncyclic_hierarchy [⟨1, none⟩, ⟨2, some 1⟩, ⟨3, none⟩] 1 true none
          (some 2) 3 =
        some (.error ("Pages cannot be descendants of themselves."))) ∧
      (validate_noncyclic_hierarchy [⟨1, none⟩, ⟨2, some 1⟩, ⟨3, none⟩] 2 true (some 1)
          (some 3) 4 =
        some .ok) ∧
      (validate_noncyclic_hierarchy [⟨1, none⟩, ⟨2, some 1⟩, ⟨3, none⟩] 1 true none
          none 2 = some .ok) := by
  have hdep : ∀ i j, parentOf [⟨1, none⟩, ⟨2, some 1⟩, ⟨3, none⟩] i = some j →
      (fun n => n) j < (fun n => n) i := by
    intro i j h
    by_cases h1 : i = 1
    · subst h1; simp [parentOf, List.find?] at h
    · by_cases h2 : i = 2
      · subst h2
        simp [parentOf, List.find?] at h
        show j < 2
        omega
      · by_cases h3 : i = 3
        · subst h3; simp [parentOf, List.find?] at h
        · have e1 : (1 == i) = false := by simp; omega
          have e2 : (2 == i) = false := by simp; omega
          have e3 : (3 == i) = false := by simp; omega
          simp [parentOf, List.find?, e1, e2, e3] at h
  refine ⟨(validate_noncyclic_reparenting _ (fun n => n) hdep 1 2).1,
    (validate_noncyclic_reparenting _ (fun n => n) hdep 1 2).2.1
      ⟨1, Nat.one_pos, by decide⟩,
    (validate_noncyclic_reparenting _ (fun n => n) hdep 2 3).2.2.1 ?_ (by decide),
    (validate_noncyclic_reparenting _ (fun n => n) hdep 1 2).2.2.2⟩
  rintro ⟨n, hn, hit⟩
  match n, hn, hit with
  | m + 1, _, hit =>
    rw [iterParent_succ] at hit
    rw [(by decide : parentOf [⟨1, none⟩, ⟨2, some 1⟩, ⟨3, none⟩] 3 = none)] at hit
    rw [iterParent_none] at hit
    cases hit

/-- Folding one more nonempty part into a join, dropping empty parts the way
`generate_denormalised_path` / `generate_denormalised_titles` do. -/
theorem join_parts_eq (sep x ppath : String) (ps : List String)
    (hx : x ≠ "") (hps : ∀ s ∈ ps, s ≠ "") (hpath : ppath = pyJoin sep ps) :
    pyJoin sep ([ppath, x].filter (fun s => s ≠ "")) = pyJoin sep (ps ++ [x]) := by
  cases ps with
  | nil =>
    subst hpath
    simp [pyJoin, hx]
  | cons s rest =>
    have hne : pyJoin sep (s :: rest) ≠ "" :=
      pyJoin_ne_empty sep _ (by simp) hps
    subst hpath
    rw [pyJoin_append_singleton]
    simp only [List.filter]
    rw [decide_eq_true hne, decide_eq_true hx]
    simp [pyJoin]

theorem parentMatches_nonempty {ancS ancT : List String} {parent : Option PageData}
    (hp : parentMatches ancS ancT parent) :
    (∀ s ∈ ancS, s ≠ "") ∧ (∀ s ∈ ancT, s ≠ "") := by
  match parent, hp with
  | none, ⟨h1, h2⟩ =>
    subst h1; subst h2
    simp
  | some p, ⟨hslug, htitle, ⟨ps, hanc, hps, _⟩, ⟨pt, hanc2, hpt, _⟩⟩ =>
    subst hanc; subst hanc2
    constructor
    · intro s hs
      rcases List.mem_append.mp hs with hs | hs
      · exact hps s hs
      · rw [List.mem_singleton] at hs
        exact hs ▸ hslug
    · intro s hs
      rcases List.mem_append.mp hs with hs | hs
      · exact hpt s hs
      · rw [List.mem_singleton] at hs
        exact hs ▸ htitle

theorem generate_of_matches {ancS ancT : List String} {parent : Option PageData}
    (hp : parentMatches ancS ancT parent) :
    generate_denormalised_path parent = pyJoin ("/") ancS ∧
      generate_denormalised_titles parent = pyJoin ("\n") ancT := by
  match parent, hp with
  | none, ⟨h1, h2⟩ =>
    subst h1; subst h2
    exact ⟨rfl, rfl⟩
  | some p, ⟨hslug, htitle, ⟨ps, hanc, hps, hpath⟩, ⟨pt, hanc2, hpt, htitles⟩⟩ =>
    subst hanc; subst hanc2
    exact ⟨join_parts_eq _ _ _ _ hslug hps hpath,
      join_parts_eq _ _ _ _ htitle hpt htitles⟩

theorem hookPattern_length (d : List Char) : (hookPattern d).length = 6 + d.length := by
  simp [hookPattern]
  omega

theorem hookPattern_ne_nil (d : List Char) : hookPattern d ≠ [] := by
  simp [hookPattern]

/-- `takeWhile`/`dropWhile` on a run of satisfying characters followed by a
failing one. -/
theorem takeWhile_dropWhile_append {p : Char → Bool} :
    ∀ (l : List Char), (∀ c ∈ l, p c) → ∀ (x : Char) (r : List Char), p x = false →
      (l ++ x :: r).takeWhile p = l ∧ (l ++ x :: r).dropWhile p = x :: r
  | [], _, x, r, hx => by
    simp [List.takeWhile_cons, List.dropWhile_cons, hx]
  | c :: l', hall, x, r, hx => by
    have hc : p c = true := hall c (by simp)
    have ih := takeWhile_dropWhile_append l' (fun c2 hc2 => hall c2 (by simp [hc2])) x r hx
    simp [List.takeWhile_cons, List.dropWhile_cons, hc, ih.1, ih.2]

/-- `matchHook` succeeds exactly by peeling a leading hook pattern. -/
theorem matchHook_eq_some {cs : List Char} {dm : String} {rest2 : List Char}
    (h : matchHook cs = some (dm, rest2)) :
    dm.data ≠ [] ∧ (∀ c ∈ dm.data, c.isDigit) ∧ cs = hookPattern dm.data ++ rest2 := by
  unfold matchHook at h
  split at h
  case _ rest =>
    split at h
    case h_1 => cases h
    case h_2 =>
      rename_i r2 heq hne
      injection h with h2
      injection h2 with hdm hr2
      subst hdm
      subst hr2
      refine ⟨hne, fun c hc => List.mem_takeWhile_imp hc, ?_⟩
      show '!' :: 'r' :: 'e' :: 'f' :: '(' :: rest = _
      simp only [hookPattern, List.cons_append, List.append_assoc,
        List.singleton_append, List.nil_append, List.cons.injEq, true_and]
      rw [← heq]
      exact (List.takeWhile_append_dropWhile Char.isDigit rest).symm
    case h_3 => cases h
  case _ => cases h

/-- `matchHook` applied to a leading hook pattern. -/
theorem matchHook_pattern {d : List Char} (hne : d ≠ []) (hdig : ∀ c ∈ d, c.isDigit)
    (rest2 : List Char) :
    matchHook (hookPattern d ++ rest2) = some (String.mk d, rest2) := by
  obtain ⟨d0, d', rfl⟩ := List.exists_cons_of_ne_nil hne
  have hsplit := takeWhile_dropWhile_append (p := Char.isDigit) (d0 :: d') hdig ')'
    rest2 (by decide)
  have hform : hookPattern (d0 :: d') ++ rest2 =
      '!' :: 'r' :: 'e' :: 'f' :: '(' :: ((d0 :: d') ++ ')' :: rest2) := by
    simp [hookPattern]
  rw [hform, matchHook, hsplit.1, hsplit.2]
  rfl

theorem isDigit_ne_rparen {c : Char} (h : c.isDigit = true) : c ≠ ')' := by
  intro hcontra
  subst hcontra
  exact absurd h (by decide)

theorem isDigit_ne_bang {c : Char} (h : c.isDigit = true) : c ≠ '!' := by
  intro hcontra
  subst hcontra
  exact absurd h (by decide)

/-- Two digit runs closed by `)` over the same text are the same run. -/
theorem digits_append_unique :
    ∀ (d dm t t' : List Char), (∀ c ∈ d, c.isDigit) → (∀ c ∈ dm, c.isDigit) →
      d ++ ')' :: t = dm ++ ')' :: t' → d = dm
  | [], [], _, _, _, _, _ => rfl
  | [], b :: dm', _, _, _, hdm, h => by
    injection h with h1 _
    exact absurd h1.symm (isDigit_ne_rparen (hdm b (by simp)))
  | a :: d', [], _, _, hd, _, h => by
    injection h with h1 _
    exact absurd h1 (isDigit_ne_rparen (hd a (by simp)))
  | a :: d', b :: dm', t, t', hd, hdm, h => by
    injection h with h1 h2
    rw [h1, digits_append_unique d' dm' t t'
      (fun c hc => hd c (by simp [hc])) (fun c hc => hdm c (by simp [hc])) h2]

/-- Peeling one character off the text shifts `HookIn` by one position,
except for a hook starting right at the head. -/
theorem hookIn_cons {prev : Option Char} {c : Char} {rest d : List Char} :
    HookIn prev (c :: rest) d ↔
      (d ≠ [] ∧ (∀ x ∈ d, x.isDigit) ∧
        ((c :: rest).take (6 + d.length) = hookPattern d) ∧ prev ≠ some '\\') ∨
        HookIn (some c) rest d := by
  constructor
  · rintro ⟨hne, hdig, i, htake, hesc⟩
    match i, htake, hesc with
    | 0, htake, hesc =>
      left
      rw [if_pos rfl] at hesc
      exact ⟨hne, hdig, by simpa using htake, hesc⟩
    | j + 1, htake, hesc =>
      right
      rw [List.drop_succ_cons] at htake
      rw [if_neg (Nat.succ_ne_zero j)] at hesc
      refine ⟨hne, hdig, j, htake, ?_⟩
      match j with
      | 0 =>
        rw [if_pos rfl]
        simpa using hesc
      | k + 1 =>
        rw [if_neg (Nat.succ_ne_zero k)]
        simpa using hesc
  · rintro (⟨hne, hdig, htake, hesc⟩ | ⟨hne, hdig, i, htake, hesc⟩)
    · exact ⟨hne, hdig, 0, by simpa using htake, by simpa using hesc⟩
    · refine ⟨hne, hdig, i + 1, ?_, ?_⟩
      · rw [List.drop_succ_cons]
        exact htake
      · rw [if_neg (Nat.succ_ne_zero i)]
        match i, hesc with
        | 0, hesc =>
          rw [if_pos rfl] at hesc
          simpa using hesc
        | k + 1, hesc =>
          rw [if_neg (Nat.succ_ne_zero k)] at hesc
          simpa using hesc

/-- A matched hook at the head of the text never hides another hook start
inside itself: everything strictly inside the pattern is a non-`!`
character. -/
theorem no_bang_inside_pattern {dm : List Char} (hdig : ∀ c ∈ dm, c.isDigit)
    {x : Char} (hx : x ∈ 'r' :: 'e' :: 'f' :: '(' :: (dm ++ [')'])) : x ≠ '!' := by
  rcases List.mem_cons.mp hx with rfl | hx
  · decide
  rcases List.mem_cons.mp hx with rfl | hx
  · decide
  rcases List.mem_cons.mp hx with rfl | hx
  · decide
  rcases List.mem_cons.mp hx with rfl | hx
  · decide
  rcases List.mem_append.mp hx with hx | hx
  · exact isDigit_ne_bang (hdig x hx)
  · rw [List.mem_singleton] at hx
    subst hx
    decide

theorem mem_of_getElem?_eq {l : List Char} {i : Nat} {x : Char} (h : l[i]? = some x) :
    x ∈ l := by
  obtain ⟨hlt, he⟩ := List.getElem?_eq_some_iff.mp h
  exact he ▸ List.getElem_mem hlt

/-- Hook occurrences in a text that starts with a matched hook `!ref(dm)`:
either the occurrence is that leading hook itself, or it lies wholly in the
remainder (nothing can start strictly inside the matched hook, whose
characters after the `!` are never `!`). -/
theorem hookIn_pattern_append {prev : Option Char} (hprev : prev ≠ some '\\')
    {dm : List Char} (hdm_ne : dm ≠ []) (hdm_dig : ∀ c ∈ dm, c.isDigit)
    (rest2 d : List Char) :
    HookIn prev (hookPattern dm ++ rest2) d ↔ d = dm ∨ HookIn (some ')') rest2 d := by
  have hplen : (hookPattern dm).length = 6 + dm.length := hookPattern_length dm
  have hdropper : ∀ k : Nat,
      (hookPattern dm ++ rest2).drop ((6 + dm.length) + k) = rest2.drop k := by
    intro k
    rw [← List.drop_drop, List.drop_left' hplen]
  have hmid : ∀ k : Nat, 1 ≤ k →
      (hookPattern dm ++ rest2)[(6 + dm.length) + k - 1]? = rest2[k - 1]? := by
    intro k hk
    rw [List.getElem?_append_right (by omega)]
    congr 1
    omega
  constructor
  · rintro ⟨hne, hdig, i, htake, hesc⟩
    by_cases hi0 : i = 0
    · subst hi0
      left
      rw [List.drop_zero] at htake
      have hcs : hookPattern dm ++ rest2 =
          hookPattern d ++ (hookPattern dm ++ rest2).drop (6 + d.length) := by
        conv_lhs => rw [← List.take_append_drop (6 + d.length) (hookPattern dm ++ rest2)]
        rw [htake]
      simp only [hookPattern, List.cons_append, List.append_assoc, List.singleton_append,
        List.cons.injEq, true_and] at hcs
      exact digits_append_unique d dm _ _ hdig hdm_dig hcs.symm
    · by_cases hipl : i < 6 + dm.length
      · exfalso
        have h1 : ((hookPattern dm ++ rest2).drop i)[0]? = some '!' := by
          rw [← List.getElem?_take_of_lt (n := 6 + d.length) (by omega), htake]
          rfl
        rw [List.getElem?_drop] at h1
        obtain ⟨k, rfl⟩ : ∃ k, i = k + 1 := ⟨i - 1, by omega⟩
        have hform : hookPattern dm ++ rest2 =
            '!' :: (('r' :: 'e' :: 'f' :: '(' :: (dm ++ [')'])) ++ rest2) := by
          simp [hookPattern]
        rw [hform] at h1
        rw [Nat.add_zero, List.getElem?_cons_succ] at h1
        rw [List.getElem?_append_left (by simp; omega)] at h1
        exact no_bang_inside_pattern hdm_dig (mem_of_getElem?_eq h1) rfl
      · obtain ⟨k, rfl⟩ : ∃ k, i = (6 + dm.length) + k :=
          ⟨i - (6 + dm.length), by omega⟩
        right
        rw [hdropper k] at htake
        refine ⟨hne, hdig, k, htake, ?_⟩
        rw [if_neg (by omega)] at hesc
        by_cases hk0 : k = 0
        · subst hk0
          rw [if_pos rfl]
          decide
        · rw [if_neg hk0]
          rw [hmid k (by omega)] at hesc
          exact hesc
  · rintro (rfl | ⟨hne, hdig, k, htake, hesc⟩)
    · refine ⟨hdm_ne, hdm_dig, 0, ?_, ?_⟩
      · rw [List.drop_zero]
        exact List.take_left' hplen
      · rw [if_pos rfl]
        exact hprev
    · refine ⟨hne, hdig, (6 + dm.length) + k, ?_, ?_⟩
      · rw [hdropper k]
        exact htake
      · rw [if_neg (by omega)]
        by_cases hk0 : k = 0
        · subst hk0
          have hrp : (hookPattern dm ++ rest2)[6 + dm.length + 0 - 1]? = some ')' := by
            have hform : hookPattern dm ++ rest2 =
                ('!' :: 'r' :: 'e' :: 'f' :: '(' :: dm) ++ (')' :: rest2) := by
              simp [hookPattern]
            rw [hform, List.getElem?_append_right (by simp; omega)]
            have hidx : 6 + dm.length + 0 - 1 -
                ('!' :: 'r' :: 'e' :: 'f' :: '(' :: dm).length = 0 := by
              simp
              omega
            rw [hidx]
            exact List.getElem?_cons_zero
          rw [hrp]
          decide
        · rw [hmid k (by omega)]
          rw [if_neg hk0] at hesc
          exact hesc

theorem matchHook_none_no_hook {cs : List Char} (h : matchHook cs = none)
    {d : List Char} (hne : d ≠ []) (hdig : ∀ c ∈ d, c.isDigit)
    (htake : cs.take (6 + d.length) = hookPattern d) : False := by
  have hcs : cs = hookPattern d ++ cs.drop (6 + d.length) := by
    conv_lhs => rw [← List.take_append_drop (6 + d.length) cs]
    rw [htake]
  rw [hcs, matchHook_pattern hne hdig] at h
  cases h

/-- The `findall` scan finds exactly the unescaped hook occurrences. -/
theorem hookScanAux_mem_iff :
    ∀ (fuel : Nat) (prev : Option Char) (cs : List Char), cs.length ≤ fuel →
      ∀ d : List Char, (String.mk d ∈ hookScanAux fuel prev cs ↔ HookIn prev cs d) := by
  intro fuel
  induction fuel with
  | zero =>
    intro prev cs hlen d
    have hnil : cs = [] := List.length_eq_zero.mp (Nat.le_zero.mp hlen)
    subst hnil
    rw [hookScanAux]
    simp only [List.not_mem_nil, false_iff]
    rintro ⟨_, _, i, htake, _⟩
    simp only [List.drop_nil, List.take_nil] at htake
    exact hookPattern_ne_nil d htake.symm
  | succ f ih =>
    intro prev cs hlen d
    match cs with
    | [] =>
      rw [hookScanAux]
      simp only [List.not_mem_nil, false_iff]
      rintro ⟨_, _, i, htake, _⟩
      simp only [List.drop_nil, List.take_nil] at htake
      exact hookPattern_ne_nil d htake.symm
    | c :: rest =>
      have hrest : rest.length ≤ f := by
        simp only [List.length_cons] at hlen
        omega
      rw [hookScanAux]
      by_cases hprev : prev = some '\\'
      · rw [if_pos (by simpa using hprev)]
        rw [ih (some c) rest hrest d, hookIn_cons]
        constructor
        · exact Or.inr
        · rintro (⟨_, _, _, h4⟩ | h)
          · exact absurd hprev h4
          · exact h
      · rw [if_neg (by simpa using hprev)]
        match hm : matchHook (c :: rest) with
        | none =>
          rw [ih (some c) rest hrest d, hookIn_cons]
          constructor
          · exact Or.inr
          · rintro (⟨hne, hdig, htake, _⟩ | h)
            · exact (matchHook_none_no_hook hm hne hdig htake).elim
            · exact h
        | some (dm, rest2) =>
          obtain ⟨hdm_ne, hdm_dig, hcs⟩ := matchHook_eq_some hm
          have hlen2 : rest2.length ≤ f := by
            have hl := congrArg List.length hcs
            simp only [List.length_cons, List.length_append, hookPattern_length] at hl
            omega
          rw [List.mem_cons, ih (some ')') rest2 hlen2 d]
          rw [hcs, hookIn_pattern_append hprev hdm_ne hdm_dig]
          refine or_congr_left ?_
          constructor
          · rintro rfl
            rfl
          · rintro h
            cases dm
            cases h
            rfl

theorem find_references_mem_iff (s : String) (v : PyVal) :
    v ∈ find_references s ↔ ∃ d : String, v = PyVal.str d ∧ SpecUnescapedHook s d := by
  constructor
  · intro hv
    rw [find_references, List.mem_toFinset, List.mem_map] at hv
    obtain ⟨ds, hds, rfl⟩ := hv
    refine ⟨ds, rfl, ?_⟩
    exact (hookScanAux_mem_iff s.data.length none s.data (le_refl _) ds.data).mp hds
  · rintro ⟨ds, rfl, hspec⟩
    rw [find_references, List.mem_toFinset, List.mem_map]
    exact ⟨ds, (hookScanAux_mem_iff s.data.length none s.data (le_refl _) ds.data).mpr
      hspec, rfl⟩

/-- Counterexample to C6 as stated: `find_references` returns the set of the
digit-group capture *strings* of `re.findall`, so on
`"!ref(5) and \!ref(6)"` it returns the Python set containing the string
`'5'` — not the integer 5, which is not a member and makes the returned set
differ from `{5}`. -/
theorem find_references_returns_strings_counterexample :
    PyVal.int 5 ∉ find_references ("!ref(5) and \\!ref(6)") ∧
      find_references ("!ref(5) and \\!ref(6)") ≠ ({PyVal.int 5} : Finset PyVal) ∧
      find_references ("!ref(5) and \\!ref(6)") = ({PyVal.str ("5")} : Finset PyVal) := by
  refine ⟨?_, ?_, ?_⟩ <;> decide

/-- C6 (amended): for every text, `find_references` returns the set of the
*strings* of digits appearing in unescaped `!ref(<id>)` hooks —
backslash-escaped hooks excluded — and in particular
`find_references("!ref(5) and \!ref(6)")` is the set containing the string
`'5'` (the escaped 6 excluded); the members are capture strings, never
Python integers. -/
theorem find_references_amended :
    (∀ (s : String) (v : PyVal), v ∈ find_references s ↔
        ∃ d : String, v = PyVal.str d ∧ SpecUnescapedHook s d) ∧
      find_references ("!ref(5) and \\!ref(6)") = ({PyVal.str ("5")} : Finset PyVal) ∧
      PyVal.str ("6") ∉ find_references ("!ref(5) and \\!ref(6)") :=
  ⟨find_references_mem_iff, by decide, by decide⟩

theorem find_references_all_str {s : String} {v : PyVal}
    (h : v ∈ find_references s) : ∃ d, v = PyVal.str d := by
  rw [find_references, List.mem_toFinset, List.mem_map] at h
  obtain ⟨d, _, rfl⟩ := h
  exact ⟨d, rfl⟩

/-- C7 (code bug): with `Reference` row 1 owned by block 7 and content
`!ref(1) !ref(2)` — so that only id 2 lacks a backing row — the raised
error names the set of *all* capture strings `{'1','2'}` with plural wording,
not the actual missing set `{2}`: `reference_ids` holds `str` captures while
`ids` holds `int` row ids, so their set difference removes nothing. -/
theorem validate_references_names_all_ids :
    validate_references [⟨1, 7⟩] 7 (some ("!ref(1) !ref(2)")) ("") =
        .error ⟨{PyVal.str ("1"), PyVal.str ("2")}, true⟩ ∧
      ({PyVal.str ("1"), PyVal.str ("2")} : Finset PyVal) ≠ {PyVal.str ("2")} ∧
      ({PyVal.str ("1"), PyVal.str ("2")} : Finset PyVal) ≠ {PyVal.int 2} := by
  refine ⟨?_, ?_, ?_⟩ <;> decide

/-- C10: `Block.publish` is atomic on error — when some unescaped hook id in
the block's own content has no backing `Reference` row owned by the block,
`validate_references` raises before `self.published = True` runs, leaving
every field of the block (its `published` flag included) unchanged; when
validation passes, publish only sets `published` to `True`. -/
theorem block_publish_atomic (rows : List RefRow) (b : BlockRec)
    (hnd : (rows.map RefRow.id).Nodup) :
    ((∃ v ∈ find_references b.content, ∀ r ∈ rows,
        r.containingBlock = b.id → pyToNat v ≠ some r.id) →
      ∃ e, block_publish rows b = (some e, b)) ∧
    (validate_references rows b.id none b.content = .ok () →
      block_publish rows b = (none, { b with published := true })) := by
  constructor
  · rintro ⟨v0, hv0A, hv0miss⟩
    have hlt : (rows.filter (fun r =>
        decide (∃ v ∈ find_references b.content, pyToNat v = some r.id) &&
          r.containingBlock == b.id)).length < (find_references b.content).card := by
      have hmapnd : ((rows.filter (fun r =>
          decide (∃ v ∈ find_references b.content, pyToNat v = some r.id) &&
            r.containingBlock == b.id)).map
              (fun r => (some r.id : Option Nat))).Nodup := by
        have h1 : (rows.map (fun r => (some r.id : Option Nat))).Nodup := by
          have h0 : rows.map (fun r => (some r.id : Option Nat)) =
              (rows.map RefRow.id).map some := by
            rw [List.map_map]
            rfl
          rw [h0]
          exact hnd.map (fun a b hab => Option.some.inj hab)
        exact ((List.filter_sublist rows).map _).nodup h1
      have hsubset : ∀ x ∈ (rows.filter (fun r =>
          decide (∃ v ∈ find_references b.content, pyToNat v = some r.id) &&
            r.containingBlock == b.id)).map (fun r => (some r.id : Option Nat)),
          x ∈ ((find_references b.content).image pyToNat).erase (pyToNat v0) := by
        intro x hx
        obtain ⟨r, hr, rfl⟩ := List.mem_map.mp hx
        rw [List.mem_filter] at hr
        obtain ⟨hrrows, hcond⟩ := hr
        rw [Bool.and_eq_true, decide_eq_true_eq, beq_iff_eq] at hcond
        obtain ⟨⟨v, hvA, hveq⟩, hcb⟩ := hcond
        refine Finset.mem_erase.mpr ⟨?_, ?_⟩
        · exact fun hcontra => hv0miss r hrrows hcb hcontra.symm
        · exact hveq ▸ Finset.mem_image_of_mem pyToNat hvA
      have h2 : (rows.filter (fun r =>
          decide (∃ v ∈ find_references b.content, pyToNat v = some r.id) &&
            r.containingBlock == b.id)).length ≤
          (((find_references b.content).image pyToNat).erase (pyToNat v0)).card := by
        rw [← List.length_map _ (fun r => (some r.id : Option Nat))]
        rw [← List.toFinset_card_of_nodup hmapnd]
        exact Finset.card_le_card (fun x hx => hsubset x (List.mem_toFinset.mp hx))
      have h3 : (((find_references b.content).image pyToNat).erase (pyToNat v0)).card =
          ((find_references b.content).image pyToNat).card - 1 :=
        Finset.card_erase_of_mem (Finset.mem_image_of_mem pyToNat hv0A)
      have h4 : ((find_references b.content).image pyToNat).card ≤
          (find_references b.content).card := Finset.card_image_le
      have h5 : 0 < ((find_references b.content).image pyToNat).card :=
        Finset.card_pos.mpr ⟨_, Finset.mem_image_of_mem pyToNat hv0A⟩
      omega
    have hfilter_all : (find_references b.content).filter (fun v =>
        v ∉ (rows.filter (fun r =>
          decide (∃ v2 ∈ find_references b.content, pyToNat v2 = some r.id) &&
            r.containingBlock == b.id)).map (fun r => PyVal.int r.id)) =
        find_references b.content := by
      refine Finset.filter_true_of_mem ?_
      intro v hv
      obtain ⟨d, rfl⟩ := find_references_all_str hv
      intro hcontra
      obtain ⟨r, _, hr⟩ := List.mem_map.mp hcontra
      cases hr
    have herr : validate_references rows b.id none b.content =
        .error ⟨find_references b.content,
          decide ((find_references b.content).card ≠ 1)⟩ := by
      rw [validate_references]
      simp only []
      rw [if_pos (by omega), hfilter_all]
      rw [if_neg (Finset.ne_empty_of_mem hv0A)]
    exact ⟨_, by rw [block_publish, herr]⟩
  · intro h
    rw [block_publish, h]

/-- Witness for C10: block 7 with content `!ref(2)` and only row 1 owned
fails to publish and is unchanged; with content `!ref(1)` it publishes. -/
theorem block_publish_atomic_witness :
    (∃ e, block_publish [⟨1, 7⟩] ⟨7, 1, 0, false, ("!ref(2)")⟩ =
        (some e, ⟨7, 1, 0, false, ("!ref(2)")⟩)) ∧
      block_publish [⟨1, 7⟩] ⟨7, 1, 0, false, ("!ref(1)")⟩ =
        (none, ⟨7, 1, 0, true, ("!ref(1)")⟩) :=
  ⟨(block_publish_atomic [⟨1, 7⟩] ⟨7, 1, 0, false, ("!ref(2)")⟩ (by decide)).1
      ⟨PyVal.str ("2"), by decide, by decide⟩,
    (block_publish_atomic [⟨1, 7⟩] ⟨7, 1, 0, false, ("!ref(1)")⟩ (by decide)).2
      (by decide)⟩

mutual

/-- Cascade correctness for one subtree: re-saving under a parent whose
stored strings match its ancestor chain makes every node of the subtree
carry the join of its own ancestors' slugs/titles. -/
theorem resaveT_correct : ∀ (ancS ancT : List String) (parent : Option PageData)
    (t : PTree), parentMatches ancS ancT parent → wellFormedT t = true →
    pathsCorrectT ancS ancT (resaveT parent t) = true
  | ancS, ancT, parent, .node d cs, hp, hwf => by
    rw [wellFormedT, Bool.and_eq_true, Bool.and_eq_true] at hwf
    obtain ⟨⟨hslug, htitle⟩, hwf2⟩ := hwf
    obtain ⟨hgenp, hgent⟩ := generate_of_matches hp
    rw [resaveT, pathsCorrectT, Bool.and_eq_true, Bool.and_eq_true]
    refine ⟨⟨?_, ?_⟩, ?_⟩
    · show (generate_denormalised_path parent == pyJoin ("/") ancS) = true
      simp [hgenp]
    · show (generate_denormalised_titles parent == pyJoin ("\n") ancT) = true
      simp [hgent]
    · show pathsCorrectF (ancS ++ [d.slug]) (ancT ++ [d.title]) _ = true
      refine resaveF_correct (ancS ++ [d.slug]) (ancT ++ [d.title]) _ cs ?_ hwf2
      refine ⟨by simpa using hslug, by simpa using htitle,
        ⟨ancS, rfl, (parentMatches_nonempty hp).1, hgenp⟩,
        ⟨ancT, rfl, (parentMatches_nonempty hp).2, hgent⟩⟩

/-- Cascade correctness over a forest of siblings. -/
theorem resaveF_correct : ∀ (ancS ancT : List String) (p : PageData) (f : PForest),
    parentMatches ancS ancT (some p) → wellFormedF f = true →
    pathsCorrectF ancS ancT (resaveF p f) = true
  | _, _, _, .nil, _, _ => rfl
  | ancS, ancT, p, .cons t ts, hp, hwf => by
    rw [wellFormedF, Bool.and_eq_true] at hwf
    rw [resaveF, pathsCorrectF, Bool.and_eq_true]
    exact ⟨resaveT_correct ancS ancT (some p) t hp hwf.1,
      resaveF_correct ancS ancT p ts hp hwf.2⟩

end

/-- C1: for every well-formed page subtree and every valid (non-cyclic)
re-parenting — modelled by handing `Page.save` a new parent outside the
subtree whose stored strings match its own ancestor chain, or `none` for a
move to top level — the save recomputes and cascades, after which the
`denormalised_path` of the moved page and of every descendant equals the
slash-join of its ancestors' slugs in root-to-parent order and
`denormalised_titles` the newline-join of their titles. -/
theorem reparented_subtree_paths_correct (ancS ancT : List String)
    (parent : Option PageData) (t : PTree) (slugChanged force : Bool)
    (hp : parentMatches ancS ancT parent) (hwf : wellFormedT t = true) :
    pathsCorrectT ancS ancT (page_save parent slugChanged true force t) = true := by
  match t with
  | .node d cs =>
    rw [page_save]
    rw [if_pos (by simp [path_needs_redenormalising])]
    exact resaveT_correct ancS ancT parent (.node d cs) hp hwf

/-- Witness for C1: moving the subtree c(d) under a parent `p` that itself
sits under a root `r` produces paths `r/p` on c and `r/p/c` on d. -/
theorem reparented_subtree_paths_correct_witness :
    pathsCorrectT (["r", "p"]) (["R", "P"])
      (page_save (some ⟨"p", "P", "r", "R"⟩) false true false
        (.node ⟨"c", "C", "stale", "stale"⟩
          (.cons (.node ⟨"d", "D", "stale2", "stale2"⟩ .nil) .nil))) = true :=
  reparented_subtree_paths_correct (["r", "p"]) (["R", "P"])
    (some ⟨"p", "P", "r", "R"⟩)
    (.node ⟨"c", "C", "stale", "stale"⟩
      (.cons (.node ⟨"d", "D", "stale2", "stale2"⟩ .nil) .nil)) false false
    ⟨by decide, by decide,
      ⟨["r"], rfl, by decide, rfl⟩, ⟨["R"], rfl, by decide, rfl⟩⟩
    (by decide)



